import Mathlib

/-!
Shallow embedding of the cone-tree viewer (`src/src/conetree.cpp`) and proofs
about its layout, selection and spin-transform algorithms.

Positions are modelled over the reals; the C++ `int` fields are modelled as
`Int`.  Each Lean definition mirrors one function of the source file and keeps
its name where Lean allows it.
-/

/-- A 3-D position, mirroring `struct Pos { float x, y, z; }`. -/
@[ext]
structure Pos where
  x : ℝ
  y : ℝ
  z : ℝ

instance : Add Pos := ⟨fun a b => ⟨a.x + b.x, a.y + b.y, a.z + b.z⟩⟩

instance : Sub Pos := ⟨fun a b => ⟨a.x - b.x, a.y - b.y, a.z - b.z⟩⟩

instance : Zero Pos := ⟨⟨0, 0, 0⟩⟩

@[simp] theorem Pos.add_x (a b : Pos) : (a + b).x = a.x + b.x := rfl

@[simp] theorem Pos.add_y (a b : Pos) : (a + b).y = a.y + b.y := rfl

@[simp] theorem Pos.add_z (a b : Pos) : (a + b).z = a.z + b.z := rfl

@[simp] theorem Pos.sub_x (a b : Pos) : (a - b).x = a.x - b.x := rfl

@[simp] theorem Pos.sub_y (a b : Pos) : (a - b).y = a.y - b.y := rfl

@[simp] theorem Pos.sub_z (a b : Pos) : (a - b).z = a.z - b.z := rfl

@[simp] theorem Pos.zero_x : (0 : Pos).x = 0 := rfl

@[simp] theorem Pos.zero_y : (0 : Pos).y = 0 := rfl

@[simp] theorem Pos.zero_z : (0 : Pos).z = 0 := rfl

/-- A tree node, mirroring
`struct Node { string text; vector<Node*> children; Pos pos; int size; }`. -/
inductive Node : Type where
  | mk (text : String) (children : List Node) (pos : Pos) (size : Int)

/-- The `text` field of a node. -/
def Node.text : Node → String
  | .mk t _ _ _ => t

/-- The `children` field of a node. -/
def Node.children : Node → List Node
  | .mk _ cs _ _ => cs

/-- The `pos` field of a node. -/
def Node.pos : Node → Pos
  | .mk _ _ p _ => p

/-- The `size` field of a node. -/
def Node.size : Node → Int
  | .mk _ _ _ s => s

@[simp] theorem Node.text_mk (t : String) (cs : List Node) (p : Pos) (s : Int) :
    (Node.mk t cs p s).text = t := rfl

@[simp] theorem Node.children_mk (t : String) (cs : List Node) (p : Pos) (s : Int) :
    (Node.mk t cs p s).children = cs := rfl

@[simp] theorem Node.pos_mk (t : String) (cs : List Node) (p : Pos) (s : Int) :
    (Node.mk t cs p s).pos = p := rfl

@[simp] theorem Node.size_mk (t : String) (cs : List Node) (p : Pos) (s : Int) :
    (Node.mk t cs p s).size = s := rfl

theorem Node.sizeOf_child_lt {c : Node} {cs : List Node} (h : c ∈ cs)
    (t : String) (p : Pos) (s : Int) : sizeOf c < sizeOf (Node.mk t cs p s) := by
  have h1 : sizeOf c < sizeOf cs := List.sizeOf_lt_of_mem h
  cases cs with
  | nil => cases h
  | cons a l => simp only [Node.mk.sizeOf_spec]; omega

/-- Structural induction for `Node` through the nested `List` of children. -/
def Node.strongInd {P : Node → Prop}
    (h : ∀ t cs p s, (∀ c ∈ cs, P c) → P (Node.mk t cs p s)) : ∀ n, P n
  | .mk t cs p s => h t cs p s (fun c hc => Node.strongInd h c)
termination_by n => sizeOf n
decreasing_by exact Node.sizeOf_child_lt hc t p s

mutual

/-- `computeSize` from the source: post-order pass writing `size` on every node
(`node->size = 1; for child: node->size += computeSize(child);`), returning the
annotated node together with the returned value `node->size`. -/
def computeSize : Node → Node × Int
  | .mk t cs p _ =>
    let r := computeSizeList cs
    (Node.mk t r.1 p (1 + r.2), 1 + r.2)

/-- The loop of `computeSize` over the children; returns the annotated children
and the sum of the values returned for them. -/
def computeSizeList : List Node → List Node × Int
  | [] => ([], 0)
  | c :: rest =>
    let rc := computeSize c
    let rr := computeSizeList rest
    (rc.1 :: rr.1, rc.2 + rr.2)

end

/-- The size fields of a tree are consistent: every node's `size` equals one
plus the sum of its children's `size` fields. -/
def SizeInv : Node → Prop
  | .mk _ cs _ s => s = 1 + (cs.map Node.size).sum ∧ ∀ c ∈ cs, SizeInv c
termination_by n => sizeOf n
decreasing_by exact Node.sizeOf_child_lt (by assumption) _ _ _

theorem SizeInv_mk (t : String) (cs : List Node) (p : Pos) (s : Int) :
    SizeInv (Node.mk t cs p s) ↔
      (s = 1 + (cs.map Node.size).sum ∧ ∀ c ∈ cs, SizeInv c) := by
  rw [SizeInv]

theorem computeSizeList_spec (cs : List Node)
    (ih : ∀ c ∈ cs, SizeInv (computeSize c).1 ∧ (computeSize c).2 = (computeSize c).1.size) :
    ((computeSizeList cs).2 = ((computeSizeList cs).1.map Node.size).sum ∧
      ∀ x ∈ (computeSizeList cs).1, SizeInv x) := by
  induction cs with
  | nil => simp [computeSizeList]
  | cons c rest ihr =>
    have hc := ih c (by simp)
    have hrest := ihr (fun d hd => ih d (by simp [hd]))
    simp only [computeSizeList, List.map_cons, List.sum_cons, List.mem_cons]
    constructor
    · rw [hrest.1, hc.2]
    · rintro x (rfl | hx)
      · exact hc.1
      · exact hrest.2 x hx

theorem computeSize_spec (n : Node) :
    SizeInv (computeSize n).1 ∧ (computeSize n).2 = (computeSize n).1.size := by
  induction n using Node.strongInd with
  | h t cs p s ih =>
    have hl := computeSizeList_spec cs ih
    simp only [computeSize]
    refine ⟨?_, by simp⟩
    rw [SizeInv_mk]
    exact ⟨by rw [hl.1], hl.2⟩

mutual

/-- `countCones` from the source: the number of internal (non-leaf) nodes of the
tree, i.e. `c = (children empty ? 0 : 1)` plus the counts of the children. -/
def countCones : Node → Int
  | .mk _ cs _ _ => (if cs.isEmpty then 0 else 1) + countConesList cs

/-- The loop of `countCones` over a list of children. -/
def countConesList : List Node → Int
  | [] => 0
  | c :: rest => countCones c + countConesList rest

end

theorem countConesList_nonneg_of (cs : List Node)
    (h : ∀ c ∈ cs, 0 ≤ countCones c) : 0 ≤ countConesList cs := by
  induction cs with
  | nil => rw [countConesList]
  | cons c rest ih =>
    rw [countConesList]
    have h1 := h c (by simp)
    have h2 := ih (fun d hd => h d (by simp [hd]))
    omega

theorem countCones_nonneg (n : Node) : 0 ≤ countCones n := by
  induction n using Node.strongInd with
  | h t cs p s ih =>
    rw [countCones]
    have := countConesList_nonneg_of cs ih
    split <;> omega

theorem countConesList_nonneg (cs : List Node) : 0 ≤ countConesList cs :=
  countConesList_nonneg_of cs (fun c _ => countCones_nonneg c)

theorem countCones_pos_of_child {t : String} {cs : List Node} {p : Pos} {s : Int}
    (h : cs ≠ []) : 1 ≤ countCones (Node.mk t cs p s) := by
  rw [countCones]
  have h1 := countConesList_nonneg cs
  have h2 : ¬ cs.isEmpty := by simpa [List.isEmpty_iff]
  rw [if_neg h2]
  omega

/-- The resolution of the cone count in the `c` key of `keyboard`:
`int cones = (totalCones > 0) ? totalCones : countCones(root);`. -/
def resolveCones (root : Node) (totalCones : Int) : Int :=
  if totalCones > 0 then totalCones else countCones root

/-- The `c` key of `keyboard` from the source: cycle the selection.
`cones` resolves from the cached global `totalCones` with a fallback to
`countCones(root)`; then `ALL (-1) -> 0 -> 1 -> ... -> cones-1 -> ALL`. -/
def cycleSelection (root : Node) (totalCones : Int) (selectedConeIndex : Int) : Int :=
  if resolveCones root totalCones ≤ 0 then selectedConeIndex
  else if selectedConeIndex = -1 then 0
  else if selectedConeIndex < resolveCones root totalCones - 1 then selectedConeIndex + 1
  else -1

theorem resolveCones_eq (root : Node) (tc : Int) (htc : tc = 0 ∨ tc = countCones root) :
    resolveCones root tc = countCones root := by
  have := countCones_nonneg root
  rw [resolveCones]
  rcases htc with h | h <;> subst h <;> split <;> omega

/-- The clamp performed by the `v`/`h`/`p` keys of `keyboard` after a re-layout:
`if (selectedConeIndex >= countCones(root)) selectedConeIndex = -1`. -/
def clampSelection (root : Node) (selectedConeIndex : Int) : Int :=
  if selectedConeIndex ≥ countCones root then -1 else selectedConeIndex

theorem cycleSelection_step_lt (root : Node) (tc k : Int)
    (htc : tc = countCones root) (hk : 0 ≤ k) (hlt : k < countCones root - 1) :
    cycleSelection root tc k = k + 1 := by
  have hres := resolveCones_eq root tc (Or.inr htc)
  rw [cycleSelection, hres]
  rw [if_neg (by omega), if_neg (by omega), if_pos (by omega)]

theorem cycleSelection_iter_of_zero (root : Node) (tc : Int)
    (htc : tc = countCones root) :
    ∀ m : ℕ, (m : Int) ≤ countCones root - 1 →
      (cycleSelection root tc)^[m] 0 = (m : Int) := by
  intro m
  induction m with
  | zero => simp
  | succ k ih =>
    intro hle
    have hk : (k : Int) ≤ countCones root - 1 := by push_cast at hle ⊢; omega
    rw [Function.iterate_succ_apply', ih hk]
    rw [cycleSelection_step_lt root tc k htc (by positivity) (by push_cast at hle; omega)]
    push_cast
    ring

/-- C6: the selection cycle advances `ALL -> 0 -> ... -> totalCones-1 -> ALL`:
from `ALL` one call yields cone `0`; `totalCones + 1` consecutive calls return
the selection to `ALL`; and when the tree has no cones the call is a no-op. -/
theorem C6_cycleSelection (root : Node) (tc : Int) (htc : tc = countCones root) :
    (0 < countCones root → cycleSelection root tc (-1) = 0) ∧
    (0 < countCones root →
      (cycleSelection root tc)^[(countCones root).toNat + 1] (-1) = -1) ∧
    (countCones root = 0 → ∀ winner : Int, cycleSelection root tc winner = winner) := by
  have hres := resolveCones_eq root tc (Or.inr htc)
  refine ⟨?_, ?_, ?_⟩
  · intro hpos
    rw [cycleSelection, hres, if_neg (by omega), if_pos rfl]
  · intro hpos
    have hfirst : cycleSelection root tc (-1) = 0 := by
      rw [cycleSelection, hres, if_neg (by omega), if_pos rfl]
    rcases Nat.exists_eq_add_of_le (by omega : 1 ≤ (countCones root).toNat) with ⟨m, hm⟩
    have hmI : (m : Int) = countCones root - 1 := by
      have := Int.toNat_of_nonneg (le_of_lt hpos)
      omega
    rw [Function.iterate_succ_apply, hfirst, hm, Nat.add_comm 1 m,
      Function.iterate_succ_apply']
    rw [cycleSelection_iter_of_zero root tc htc m (by omega)]
    rw [cycleSelection, hres, if_neg (by omega), if_neg (by omega), if_neg (by omega)]
  · intro h0 winner
    rw [cycleSelection, hres, if_pos (by omega)]

/-- A closed instance of `C6_cycleSelection` on a two-cone tree: root and its
first child are internal, so the cycle is `ALL -> 0 -> 1 -> ALL`. -/
theorem C6_cycleSelection_witness :
    (let leaf1 : Node := Node.mk "A1" [] ⟨0, 0, 0⟩ 1
     let leaf2 : Node := Node.mk "A2" [] ⟨0, 0, 0⟩ 1
     let leafB : Node := Node.mk "B" [] ⟨0, 0, 0⟩ 1
     let na : Node := Node.mk "A" [leaf1, leaf2] ⟨0, 0, 0⟩ 3
     let r : Node := Node.mk "R" [na, leafB] ⟨0, 0, 0⟩ 5
     cycleSelection r (countCones r) (-1) = 0 ∧
       (cycleSelection r (countCones r))^[(countCones r).toNat + 1] (-1) = -1) := by
  have hcc : countCones (Node.mk "R"
      [Node.mk "A" [Node.mk "A1" [] ⟨0, 0, 0⟩ 1, Node.mk "A2" [] ⟨0, 0, 0⟩ 1] ⟨0, 0, 0⟩ 3,
       Node.mk "B" [] ⟨0, 0, 0⟩ 1] ⟨0, 0, 0⟩ 5) = 2 := by
    simp [countCones, countConesList]
  have h := C6_cycleSelection (Node.mk "R"
      [Node.mk "A" [Node.mk "A1" [] ⟨0, 0, 0⟩ 1, Node.mk "A2" [] ⟨0, 0, 0⟩ 1] ⟨0, 0, 0⟩ 3,
       Node.mk "B" [] ⟨0, 0, 0⟩ 1] ⟨0, 0, 0⟩ 5) _ rfl
  exact ⟨h.1 (by rw [hcc]; norm_num), h.2.1 (by rw [hcc]; norm_num)⟩

/-- The selection is either the `ALL` sentinel `-1` or a numeric index in
range `[0, countCones root)`. -/
def SelInRange (root : Node) (sel : Int) : Prop :=
  sel = -1 ∨ (0 ≤ sel ∧ sel < countCones root)

/-- C8: selection cycling and the clamp run after every axis-mode or
spacing-policy toggle both preserve the invariant that a numeric selection is in
`[0, totalCones)`; and the clamp resets any out-of-range numeric selection to
`ALL`. -/
theorem C8_selection_invariant (root : Node) (tc sel : Int)
    (htc : tc = 0 ∨ tc = countCones root) (hsel : SelInRange root sel) :
    SelInRange root (cycleSelection root tc sel) ∧
    SelInRange root (clampSelection root sel) ∧
    (∀ j : Int, countCones root ≤ j → clampSelection root j = -1) := by
  have hnn := countCones_nonneg root
  have hres := resolveCones_eq root tc htc
  refine ⟨?_, ?_, ?_⟩
  · rw [cycleSelection, hres]
    rcases hsel with h | h
    · subst h
      by_cases hz : countCones root ≤ 0
      · rw [if_pos hz]; exact Or.inl rfl
      · rw [if_neg hz, if_pos rfl]
        exact Or.inr ⟨le_refl 0, by omega⟩
    · rw [if_neg (by omega)]
      rw [if_neg (by omega)]
      by_cases hlt : sel < countCones root - 1
      · rw [if_pos hlt]
        exact Or.inr ⟨by omega, by omega⟩
      · rw [if_neg hlt]
        exact Or.inl rfl
  · rw [clampSelection]
    rcases hsel with h | h
    · subst h
      split
      · exact Or.inl rfl
      · exact Or.inl rfl
    · rw [if_neg (by omega)]
      exact Or.inr h
  · intro j hj
    rw [clampSelection, if_pos hj]

/-- A closed instance of `C8_selection_invariant`: on a two-cone tree with
selection `1`, cycling and clamping keep the selection in range and an
out-of-range selection `5` is reset to `ALL`. -/
theorem C8_selection_invariant_witness :
    (let r : Node := Node.mk "R" [Node.mk "A" [Node.mk "A1" [] ⟨0, 0, 0⟩ 1] ⟨0, 0, 0⟩ 2] ⟨0, 0, 0⟩ 3
     SelInRange r (cycleSelection r (countCones r) 1) ∧
       SelInRange r (clampSelection r 1) ∧ clampSelection r 5 = -1) := by
  have h := C8_selection_invariant
      (Node.mk "R" [Node.mk "A" [Node.mk "A1" [] ⟨0, 0, 0⟩ 1] ⟨0, 0, 0⟩ 2] ⟨0, 0, 0⟩ 3)
      (countCones (Node.mk "R" [Node.mk "A" [Node.mk "A1" [] ⟨0, 0, 0⟩ 1] ⟨0, 0, 0⟩ 2] ⟨0, 0, 0⟩ 3))
      1 (Or.inr rfl)
      (Or.inr ⟨by norm_num, by simp [countCones, countConesList]⟩)
  exact ⟨h.1, h.2.1, h.2.2 5 (by simp [countCones, countConesList])⟩

/-- The per-node total angular weight of `layoutTree`:
`float total_sub = proportional ? (curr->size - 1) : num_children;`. -/
def totalWeightOf (proportional : Bool) (curr : Node) : ℝ :=
  if proportional then ((curr.size : ℝ) - 1) else (curr.children.length : ℝ)

/-- The per-child angular span of `layoutTree`:
`span_weight = proportional ? child->size : 1.0f;`
`span = 2.0f * M_PI * (span_weight / total_sub);`. -/
noncomputable def spanOf (proportional : Bool) (total_sub : ℝ) (child : Node) : ℝ :=
  2 * Real.pi * ((if proportional then (child.size : ℝ) else 1) / total_sub)

mutual

/-- `layoutRec` from the source: write `curr->pos = parent_pos`, then place the
children on the base circle one `level_height` below (vertical) or to the right
of (horizontal) the current node. -/
noncomputable def layoutRec (vertical proportional : Bool)
    (level_height base_radius_factor : ℝ) : Node → Pos → ℝ → Node
  | .mk t cs _ sz, parent_pos, parent_angle =>
    if cs.isEmpty then Node.mk t cs parent_pos sz
    else
      let total_sub := totalWeightOf proportional (Node.mk t cs parent_pos sz)
      let radius := total_sub * base_radius_factor + 1
      let base_center : Pos :=
        if vertical then ⟨parent_pos.x, parent_pos.y - level_height, parent_pos.z⟩
        else ⟨parent_pos.x + level_height, parent_pos.y, parent_pos.z⟩
      Node.mk t
        (layoutKids vertical proportional level_height base_radius_factor total_sub radius
          base_center cs parent_angle)
        parent_pos sz

/-- The child loop of `layoutRec`: each child is placed at the angular center of
its slice (`cum_angle + span/2`) at distance `radius` from `base_center` in the
plane orthogonal to the tree axis, and the cumulative angle advances by the full
span before the next sibling. -/
noncomputable def layoutKids (vertical proportional : Bool)
    (level_height base_radius_factor total_sub radius : ℝ) (base_center : Pos) :
    List Node → ℝ → List Node
  | [], _ => []
  | c :: rest, cum_angle =>
    let span := spanOf proportional total_sub c
    let child_angle := cum_angle + span / 2
    let child_pos : Pos :=
      if vertical then
        ⟨base_center.x + radius * Real.sin child_angle, base_center.y,
          base_center.z + radius * Real.cos child_angle⟩
      else
        ⟨base_center.x, base_center.y + radius * Real.sin child_angle,
          base_center.z + radius * Real.cos child_angle⟩
    layoutRec vertical proportional level_height base_radius_factor c child_pos child_angle ::
      layoutKids vertical proportional level_height base_radius_factor total_sub radius
        base_center rest (cum_angle + span)

end

mutual

/-- `findMinY` from the source: the minimum `pos.y` over the whole tree. -/
noncomputable def findMinY : Node → ℝ
  | .mk _ cs p _ => findMinYList cs p.y

/-- The child loop of `findMinY`: `minY = min(minY, findMinY(child))`. -/
noncomputable def findMinYList : List Node → ℝ → ℝ
  | [], m => m
  | c :: rest, m => findMinYList rest (min m (findMinY c))

end

mutual

/-- `shiftTree` from the source: translate every node's position by
`(dx, dy, dz)`. -/
def shiftTree : Node → ℝ → ℝ → ℝ → Node
  | .mk t cs p s, dx, dy, dz =>
    Node.mk t (shiftList cs dx dy dz) ⟨p.x + dx, p.y + dy, p.z + dz⟩ s

/-- The child loop of `shiftTree`. -/
def shiftList : List Node → ℝ → ℝ → ℝ → List Node
  | [], _, _, _ => []
  | c :: rest, dx, dy, dz => shiftTree c dx dy dz :: shiftList rest dx dy dz

end

/-- `layoutTree` from the source: place the root at the origin, run the
recursive radial layout, and in vertical mode shift the whole tree upward by
`-min_y + bottom_margin`. -/
noncomputable def layoutTree (node : Node) (vertical proportional : Bool)
    (level_height base_radius_factor bottom_margin : ℝ) : Node :=
  let n1 := layoutRec vertical proportional level_height base_radius_factor node ⟨0, 0, 0⟩ 0
  if vertical then shiftTree n1 0 (-(findMinY n1) + bottom_margin) 0
  else n1

theorem findMinYList_shift (cs : List Node)
    (ih : ∀ c ∈ cs, ∀ dx dy dz : ℝ, findMinY (shiftTree c dx dy dz) = findMinY c + dy) :
    ∀ (m dx dy dz : ℝ), findMinYList (shiftList cs dx dy dz) (m + dy) = findMinYList cs m + dy := by
  induction cs with
  | nil => intro m dx dy dz; rw [shiftList, findMinYList, findMinYList]
  | cons c rest ihr =>
    intro m dx dy dz
    rw [shiftList, findMinYList, findMinYList]
    rw [ih c (by simp) dx dy dz, min_add_add_right]
    exact ihr (fun d hd => ih d (by simp [hd])) _ dx dy dz

theorem findMinY_shift (n : Node) :
    ∀ dx dy dz : ℝ, findMinY (shiftTree n dx dy dz) = findMinY n + dy := by
  induction n using Node.strongInd with
  | h t cs p s ih =>
    intro dx dy dz
    rw [shiftTree, findMinY, findMinY]
    exact findMinYList_shift cs ih p.y dx dy dz

/-- C5: after a vertical layout pass the minimum `y` over all nodes equals
`bottom_margin` (the whole tree was translated upward by `-minY +
bottom_margin`), and a horizontal layout pass applies no such translation. -/
theorem C5_vertical_min_y (node : Node) (proportional : Bool)
    (level_height base_radius_factor bottom_margin : ℝ) :
    findMinY (layoutTree node true proportional level_height base_radius_factor bottom_margin) =
      bottom_margin ∧
    layoutTree node false proportional level_height base_radius_factor bottom_margin =
      layoutRec false proportional level_height base_radius_factor node ⟨0, 0, 0⟩ 0 := by
  constructor
  · rw [layoutTree]
    simp only [if_true]
    rw [findMinY_shift]
    ring
  · rw [layoutTree]
    simp

theorem foldl_add_eq_sum (f : Node → ℝ) (cs : List Node) :
    ∀ start : ℝ, cs.foldl (fun a c => a + f c) start = start + (cs.map f).sum := by
  induction cs with
  | nil => intro start; simp
  | cons c rest ih => intro start; simp [ih]; ring

theorem length_le_sum_size (cs : List Node) (h : ∀ c ∈ cs, 1 ≤ c.size) :
    (cs.length : Int) ≤ (cs.map Node.size).sum := by
  induction cs with
  | nil => simp
  | cons c rest ih =>
    have h1 := h c (by simp)
    have h2 := ih (fun d hd => h d (by simp [hd]))
    simp only [List.length_cons, List.map_cons, List.sum_cons]
    push_cast
    omega

theorem list_sum_map_const (cs : List Node) (v : ℝ) :
    (cs.map (fun _ => v)).sum = cs.length * v := by
  induction cs with
  | nil => simp
  | cons c rest ih => simp only [List.map_cons, List.sum_cons, List.length_cons, ih]; push_cast; ring

theorem cast_sum_size (cs : List Node) :
    ((cs.map Node.size).sum : ℝ) = (cs.map (fun c => ((c.size : Int) : ℝ))).sum := by
  induction cs with
  | nil => simp
  | cons c rest ih =>
    rw [List.map_cons, List.sum_cons, List.map_cons, List.sum_cons, Int.cast_add, ih]

/-- C3: for a node with at least one child, the angular spans computed by the
layout sum to exactly `2π` in both uniform and proportional mode (the latter
assuming `size` fields as established by `computeSize`), and the cumulative
angle — which advances by the full span of each child — ends at
`parent_angle + 2π`. -/
theorem sum_map_div_right (cs : List Node) (f : Node → ℝ) (S : ℝ) :
    (cs.map fun c => f c / S).sum = (cs.map f).sum / S := by
  induction cs with
  | nil => simp
  | cons c rest ih => simp only [List.map_cons, List.sum_cons, ih]; ring

theorem C3_spans_sum_two_pi (proportional : Bool) (curr : Node)
    (hne : curr.children ≠ [])
    (hsz : proportional = true →
      curr.size = 1 + (curr.children.map Node.size).sum ∧
        ∀ c ∈ curr.children, 1 ≤ c.size) :
    (curr.children.map
      (fun c => spanOf proportional (totalWeightOf proportional curr) c)).sum =
      2 * Real.pi ∧
    ∀ parent_angle : ℝ,
      curr.children.foldl
          (fun a c => a + spanOf proportional (totalWeightOf proportional curr) c)
          parent_angle =
        parent_angle + 2 * Real.pi := by
  have hmain :
      (curr.children.map
        (fun c => spanOf proportional (totalWeightOf proportional curr) c)).sum =
        2 * Real.pi := by
    cases proportional with
    | false =>
      have hk : (curr.children.length : ℝ) ≠ 0 := by
        have : 0 < curr.children.length := List.length_pos.mpr hne
        positivity
      simp only [spanOf, totalWeightOf, Bool.false_eq_true, if_false]
      rw [List.sum_map_mul_left, list_sum_map_const]
      field_simp
    | true =>
      rcases hsz rfl with ⟨hs, hpos⟩
      have hlen : (1 : Int) ≤ (curr.children.length : Int) := by
        have : 0 < curr.children.length := List.length_pos.mpr hne
        omega
      have hsum : (1 : Int) ≤ (curr.children.map Node.size).sum :=
        le_trans hlen (length_le_sum_size curr.children hpos)
      have hS : ((curr.size : ℝ) - 1) = ((curr.children.map Node.size).sum : ℝ) := by
        rw [hs]; push_cast; ring
      have hSne : ((curr.size : ℝ) - 1) ≠ 0 := by
        rw [hS]
        have h1 : (1 : ℝ) ≤ ((curr.children.map Node.size).sum : ℝ) := by exact_mod_cast hsum
        linarith
      simp only [spanOf, totalWeightOf, if_true]
      rw [List.sum_map_mul_left, sum_map_div_right, ← cast_sum_size, ← hS]
      field_simp
  refine ⟨hmain, fun parent_angle => ?_⟩
  rw [foldl_add_eq_sum, hmain]

/-- A closed instance of `C3_spans_sum_two_pi`: on a node with two leaf children
and consistent sizes, the spans sum to `2π` in both modes. -/
theorem C3_spans_sum_two_pi_witness :
    (let a : Node := Node.mk "A" [] ⟨0, 0, 0⟩ 1
     let b : Node := Node.mk "B" [] ⟨0, 0, 0⟩ 1
     let r : Node := Node.mk "R" [a, b] ⟨0, 0, 0⟩ 3
     ((r.children.map (fun c => spanOf true (totalWeightOf true r) c)).sum = 2 * Real.pi) ∧
       ((r.children.map (fun c => spanOf false (totalWeightOf false r) c)).sum =
         2 * Real.pi)) := by
  constructor
  · exact (C3_spans_sum_two_pi true
      (Node.mk "R" [Node.mk "A" [] ⟨0, 0, 0⟩ 1, Node.mk "B" [] ⟨0, 0, 0⟩ 1] ⟨0, 0, 0⟩ 3)
      (by simp) (fun _ => ⟨by simp, by intro c hc; fin_cases hc <;> simp⟩)).1
  · exact (C3_spans_sum_two_pi false
      (Node.mk "R" [Node.mk "A" [] ⟨0, 0, 0⟩ 1, Node.mk "B" [] ⟨0, 0, 0⟩ 1] ⟨0, 0, 0⟩ 3)
      (by simp) (fun h => by cases h)).1

/-- An input document node: a text label and an ordered list of child nodes, in
document order (the `node` elements of the `.mm` file). -/
inductive Doc : Type where
  | mk (text : String) (children : List Doc)

/-- The `text` of a document node. -/
def Doc.text : Doc → String
  | .mk t _ => t

/-- The `children` of a document node, in document order. -/
def Doc.children : Doc → List Doc
  | .mk _ cs => cs

mutual

/-- `parseMM`'s recursive element walk from the source, applied to one document
node: build a `Node` with the document's text; `pos` and `size` are
value-initialized to zero. -/
def parseDoc : Doc → Node
  | .mk t cs => Node.mk t (parseChildren cs []) ⟨0, 0, 0⟩ 0

/-- The loop of `parseRec` over the document children, in document order: each
parsed child is inserted at the **front** of the accumulated children vector
(`node->children.insert(node->children.begin(), newNode)`). -/
def parseChildren : List Doc → List Node → List Node
  | [], acc => acc
  | d :: rest, acc => parseChildren rest (parseDoc d :: acc)

end

theorem parseChildren_eq (ds : List Doc) :
    ∀ acc : List Node, parseChildren ds acc = (ds.map parseDoc).reverse ++ acc := by
  induction ds with
  | nil => intro acc; rw [parseChildren]; simp
  | cons d rest ih =>
    intro acc
    rw [parseChildren, ih]
    simp

/-- C10: the parser inserts each parsed child at the front of its parent's
children vector, so every node's stored children are the reverse of their order
in the source document. -/
theorem C10_parse_reverses_children (d : Doc) :
    (parseDoc d).children = (d.children.map parseDoc).reverse := by
  rcases d with ⟨t, cs⟩
  rw [parseDoc]
  simp only [Node.children_mk, Doc.children]
  rw [parseChildren_eq]
  simp

/-- The per-cone spin angle determination inside `drawTree`:
`allSelected = (selectedConeIndex == -1)`,
`thisConeSelected = allSelected || (coneIndex == selectedConeIndex)`,
then `spinDeg = 0`, and if animation is on, `allConesSpinDeg` when all are
selected, else `singleConeSpinDeg` when this cone is selected. -/
def coneSpinDeg (animationOn : Bool) (selectedConeIndex : Int)
    (coneSpinAllDeg coneSpinSingleDeg : ℝ) (coneIndex : Int) : ℝ :=
  let allSelected := selectedConeIndex = -1
  let thisConeSelected := allSelected ∨ coneIndex = selectedConeIndex
  if animationOn then
    if h : allSelected then coneSpinAllDeg
    else if h2 : thisConeSelected then coneSpinSingleDeg
    else 0
  else 0

/-- C9: in every frame the spin angle applied to a cone is `0` when animation is
disabled, `allConesSpinDeg` when `ALL` is selected, `singleConeSpinDeg` when
this cone's index equals the numeric selection, and `0` otherwise — an
unselected cone never spins while a single cone is selected. -/
theorem C9_coneSpinDeg_cases (animationOn : Bool) (sel : Int) (a b : ℝ) (idx : Int) :
    (animationOn = false → coneSpinDeg animationOn sel a b idx = 0) ∧
    (animationOn = true → sel = -1 → coneSpinDeg animationOn sel a b idx = a) ∧
    (animationOn = true → sel ≠ -1 → idx = sel → coneSpinDeg animationOn sel a b idx = b) ∧
    (animationOn = true → sel ≠ -1 → idx ≠ sel → coneSpinDeg animationOn sel a b idx = 0) := by
  refine ⟨?_, ?_, ?_, ?_⟩
  · rintro rfl; rw [coneSpinDeg]; simp
  · rintro rfl rfl; rw [coneSpinDeg]; simp
  · rintro rfl hne rfl
    rw [coneSpinDeg]
    simp [hne]
  · rintro rfl hne hidx
    rw [coneSpinDeg]
    simp [hne, hidx]

/-- A closed instance of `C9_coneSpinDeg_cases`: with animation on and cone `3`
selected, cone `5` does not spin and cone `3` spins by `singleConeSpinDeg`. -/
theorem C9_coneSpinDeg_cases_witness :
    coneSpinDeg true 3 10 20 5 = 0 ∧ coneSpinDeg true 3 10 20 3 = 20 := by
  constructor
  · exact (C9_coneSpinDeg_cases true 3 10 20 5).2.2.2 rfl (by norm_num) (by norm_num)
  · exact (C9_coneSpinDeg_cases true 3 10 20 3).2.2.1 rfl (by norm_num) rfl

/-- The mutable viewer state touched by the animation clock `timer`. -/
structure ViewerState where
  animationOn : Bool
  verticalMode : Bool
  selectedConeIndex : Int
  rotX : ℝ
  rotY : ℝ
  coneSpinAllDeg : ℝ
  coneSpinSingleDeg : ℝ
  animationSpeed : ℝ

/-- The single `-= 360` wrap performed by `timer` after an angle increment:
`if (angle >= 360.0f) angle -= 360.0f;`. -/
noncomputable def wrap360 (a : ℝ) : ℝ :=
  if a ≥ 360 then a - 360 else a

theorem wrap360_mem (a : ℝ) (h0 : 0 ≤ a) (h1 : a < 720) :
    0 ≤ wrap360 a ∧ wrap360 a < 360 := by
  rw [wrap360]
  split
  all_goals constructor
  all_goals linarith

/-- One tick of `timer` from the source: when animation is on and `ALL` is
selected, advance the scene rotation (`rot_y` in vertical mode, `rot_x`
otherwise) by `1.0 * animationSpeed` and `coneSpinAllDeg` by
`2.5 * animationSpeed` with a single `-= 360` wrap; when a single cone is
selected, advance only `coneSpinSingleDeg` by `4.0 * animationSpeed` with the
same wrap. -/
noncomputable def timerTick (s : ViewerState) : ViewerState :=
  if s.animationOn then
    if s.selectedConeIndex = -1 then
      { s with
        rotY := if s.verticalMode then s.rotY + 1 * s.animationSpeed else s.rotY,
        rotX := if s.verticalMode then s.rotX else s.rotX + 1 * s.animationSpeed,
        coneSpinAllDeg := wrap360 (s.coneSpinAllDeg + 2.5 * s.animationSpeed) }
    else
      { s with coneSpinSingleDeg := wrap360 (s.coneSpinSingleDeg + 4 * s.animationSpeed) }
  else s

theorem timerTick_coneSpin_invariant (s : ViewerState)
    (hall : 0 ≤ s.coneSpinAllDeg ∧ s.coneSpinAllDeg < 360)
    (hsingle : 0 ≤ s.coneSpinSingleDeg ∧ s.coneSpinSingleDeg < 360)
    (hspeed : 0.1 ≤ s.animationSpeed ∧ s.animationSpeed ≤ 10) :
    (0 ≤ (timerTick s).coneSpinAllDeg ∧ (timerTick s).coneSpinAllDeg < 360) ∧
    (0 ≤ (timerTick s).coneSpinSingleDeg ∧ (timerTick s).coneSpinSingleDeg < 360) ∧
    (timerTick s).animationSpeed = s.animationSpeed := by
  by_cases h1 : s.animationOn
  · by_cases h2 : s.selectedConeIndex = -1
    · simp only [timerTick, h1, h2, if_true]
      refine ⟨?_, ⟨hsingle.1, hsingle.2⟩, by trivial⟩
      exact wrap360_mem _ (by linarith [hall.1, hspeed.1]) (by linarith [hall.2, hspeed.2])
    · simp only [timerTick, h1, h2, if_true, if_false]
      refine ⟨⟨hall.1, hall.2⟩, ?_, by trivial⟩
      exact wrap360_mem _ (by linarith [hsingle.1, hspeed.1]) (by linarith [hsingle.2, hspeed.2])
  · simp only [timerTick, h1, Bool.false_eq_true, if_false]
    exact ⟨hall, hsingle, by trivial⟩

/-- C7 (amended): along any sequence of animation clock ticks, the two cone-spin
angles `coneSpinAllDeg` and `coneSpinSingleDeg` stay inside `[0, 360)` for any
speed multiplier in `[0.1, 10]`; the scene orbit angle is not so bounded. -/
theorem C7_amended_spin_angles_bounded (s : ViewerState) (n : ℕ)
    (hall : 0 ≤ s.coneSpinAllDeg ∧ s.coneSpinAllDeg < 360)
    (hsingle : 0 ≤ s.coneSpinSingleDeg ∧ s.coneSpinSingleDeg < 360)
    (hspeed : 0.1 ≤ s.animationSpeed ∧ s.animationSpeed ≤ 10) :
    (0 ≤ (timerTick^[n] s).coneSpinAllDeg ∧ (timerTick^[n] s).coneSpinAllDeg < 360) ∧
    (0 ≤ (timerTick^[n] s).coneSpinSingleDeg ∧ (timerTick^[n] s).coneSpinSingleDeg < 360) := by
  induction n generalizing s with
  | zero => exact ⟨hall, hsingle⟩
  | succ k ih =>
    rw [Function.iterate_succ_apply]
    have h := timerTick_coneSpin_invariant s hall hsingle hspeed
    exact ih (timerTick s) h.1 h.2.1 (by rw [h.2.2]; exact hspeed)

/-- A closed instance of `C7_amended_spin_angles_bounded` after two ticks from
an in-range state. -/
theorem C7_amended_spin_angles_bounded_witness :
    (let s : ViewerState :=
      { animationOn := true, verticalMode := true, selectedConeIndex := -1,
        rotX := 0, rotY := 0, coneSpinAllDeg := 359, coneSpinSingleDeg := 0,
        animationSpeed := 1 }
     (0 ≤ (timerTick^[2] s).coneSpinAllDeg ∧ (timerTick^[2] s).coneSpinAllDeg < 360) ∧
       (0 ≤ (timerTick^[2] s).coneSpinSingleDeg ∧
         (timerTick^[2] s).coneSpinSingleDeg < 360)) := by
  exact C7_amended_spin_angles_bounded
    { animationOn := true, verticalMode := true, selectedConeIndex := -1,
      rotX := 0, rotY := 0, coneSpinAllDeg := 359, coneSpinSingleDeg := 0,
      animationSpeed := 1 } 2
    ⟨by norm_num, by norm_num⟩ ⟨by norm_num, by norm_num⟩ ⟨by norm_num, by norm_num⟩

/-- C7 as stated is false: the scene orbit angle (`rot_y` in vertical mode) is
advanced without wrapping, so a tick from an in-range state can push it to
`360`, outside `[0, 360)`. -/
theorem C7_counterexample :
    (let s : ViewerState :=
      { animationOn := true, verticalMode := true, selectedConeIndex := -1,
        rotX := 0, rotY := 359.5, coneSpinAllDeg := 0, coneSpinSingleDeg := 0,
        animationSpeed := 1 }
     (0 ≤ s.rotY ∧ s.rotY < 360) ∧ (timerTick s).rotY = 360.5 ∧
       ¬ ((timerTick s).rotY < 360)) := by
  refine ⟨⟨by norm_num, by norm_num⟩, ?_⟩
  have h : (timerTick
      { animationOn := true, verticalMode := true, selectedConeIndex := -1,
        rotX := 0, rotY := 359.5, coneSpinAllDeg := 0, coneSpinSingleDeg := 0,
        animationSpeed := 1 }).rotY = 359.5 + 1 * 1 := by
    rw [timerTick]
    norm_num
  rw [h]
  norm_num

/-- `rotateOffsetAroundConeAxis` from the source: rotate an offset by `deg`
degrees around the tree's long axis — the `y` axis (acting on the `(x,z)` pair)
in vertical mode, the `x` axis (acting on `(y,z)`) in horizontal mode. -/
noncomputable def rotateOffsetAroundConeAxis (offset : Pos) (deg : ℝ) (vertical : Bool) : Pos :=
  let r := deg * Real.pi / 180
  let c := Real.cos r
  let s := Real.sin r
  if vertical then
    ⟨offset.x * c - offset.z * s, offset.y, offset.x * s + offset.z * c⟩
  else
    ⟨offset.x, offset.y * c - offset.z * s, offset.y * s + offset.z * c⟩

theorem rotateOffsetAroundConeAxis_zero (offset : Pos) (vertical : Bool) :
    rotateOffsetAroundConeAxis offset 0 vertical = offset := by
  rw [rotateOffsetAroundConeAxis]
  simp only [zero_mul, zero_div, Real.cos_zero, Real.sin_zero]
  split
  all_goals ext <;> simp <;> ring

/-- The world-position tree produced by one draw traversal: one position per
node, congruent in shape to the `Node` tree. -/
inductive PTree : Type where
  | mk (pos : Pos) (children : List PTree)

/-- The world position at the root of a `PTree`. -/
def PTree.pos : PTree → Pos
  | .mk p _ => p

/-- The children of a `PTree`. -/
def PTree.children : PTree → List PTree
  | .mk _ cs => cs

@[simp] theorem PTree.mkPos (p : Pos) (cs : List PTree) : (PTree.mk p cs).pos = p := rfl

@[simp] theorem PTree.mkChildren (p : Pos) (cs : List PTree) :
    (PTree.mk p cs).children = cs := rfl

mutual

/-- `drawTree` from the source, stripped of the pure rendering calls: compute
the world position of every node and thread the pre-order cone index.  The node
itself is rendered at `worldPos`; if it is internal, its cone spins by
`coneSpinDeg`, the cone index advances, and each child's layout-relative offset
`child->pos - node->pos` — rotated around the cone axis when the spin is
nonzero — is added to `worldPos` to obtain the child's world position. -/
noncomputable def drawTree (animationOn : Bool) (sel : Int) (allDeg singleDeg : ℝ)
    (vertical : Bool) : Node → Int → Pos → PTree × Int
  | .mk _ cs npos _, coneIndex, worldPos =>
    if cs.isEmpty then (PTree.mk worldPos [], coneIndex)
    else
      let spinDeg := coneSpinDeg animationOn sel allDeg singleDeg coneIndex
      let r := drawKids animationOn sel allDeg singleDeg vertical npos spinDeg worldPos
        cs (coneIndex + 1)
      (PTree.mk worldPos r.1, r.2)

/-- The child loop of `drawTree`: for each child compute
`rel = child->pos - node->pos`, rotate it when `spinDeg != 0`, place the child
at `worldPos + rel` and recurse, threading the cone index. -/
noncomputable def drawKids (animationOn : Bool) (sel : Int) (allDeg singleDeg : ℝ)
    (vertical : Bool) (npos : Pos) (spinDeg : ℝ) (worldPos : Pos) :
    List Node → Int → List PTree × Int
  | [], coneIndex => ([], coneIndex)
  | child :: rest, coneIndex =>
    let rel := child.pos - npos
    let rel2 := if spinDeg ≠ 0 then rotateOffsetAroundConeAxis rel spinDeg vertical else rel
    let childWorld := worldPos + rel2
    let rc := drawTree animationOn sel allDeg singleDeg vertical child coneIndex childWorld
    let rr := drawKids animationOn sel allDeg singleDeg vertical npos spinDeg worldPos
      rest rc.2
    (rc.1 :: rr.1, rr.2)

end

mutual

/-- The tree of cached layout positions of a `Node` tree. -/
def posTreeOf : Node → PTree
  | .mk _ cs p _ => PTree.mk p (posTreeOfList cs)

/-- `posTreeOf` over a list of children. -/
def posTreeOfList : List Node → List PTree
  | [] => []
  | c :: rest => posTreeOf c :: posTreeOfList rest

end

mutual

/-- Translate every position of a `PTree` by `d`. -/
def ptShift : PTree → Pos → PTree
  | .mk p cs, d => PTree.mk (p + d) (ptShiftList cs d)

/-- `ptShift` over a list. -/
def ptShiftList : List PTree → Pos → List PTree
  | [], _ => []
  | c :: rest, d => ptShift c d :: ptShiftList rest d

end

/-- The position stored in a `PTree` at a path of child indices. -/
def PTree.posAt : PTree → List ℕ → Option Pos
  | t, [] => some t.pos
  | t, i :: p =>
    match t.children[i]? with
    | some c => c.posAt p
    | none => none

/-- The cached layout position of the `Node` at a path of child indices. -/
def Node.posAt : Node → List ℕ → Option Pos
  | n, [] => some n.pos
  | n, i :: p =>
    match n.children[i]? with
    | some c => c.posAt p
    | none => none

/-- The `Node` reached by following a path of child indices. -/
def nodeAtPath : Node → List ℕ → Option Node
  | n, [] => some n
  | n, i :: p =>
    match n.children[i]? with
    | some c => nodeAtPath c p
    | none => none

/-- The pre-order cone index that the draw traversal assigns to the internal
node at the given path (relative to the starting index of the subtree): one for
every internal node visited strictly before it, i.e. each ancestor on the path
and every cone inside an earlier sibling subtree. -/
def conesBefore : Node → List ℕ → Int
  | _, [] => 0
  | n, i :: p =>
    match n.children[i]? with
    | some c => 1 + countConesList (n.children.take i) + conesBefore c p
    | none => 0

/-- `p` lies inside the subtree rooted at path `q` (i.e. `q` is a prefix). -/
def pathUnder (q p : List ℕ) : Prop :=
  ∃ r, p = q ++ r

theorem posTreeOfList_eq_map (cs : List Node) : posTreeOfList cs = cs.map posTreeOf := by
  induction cs with
  | nil => rw [posTreeOfList]; simp
  | cons c rest ih => rw [posTreeOfList, ih]; simp

theorem ptShiftList_eq_map (cs : List PTree) (d : Pos) :
    ptShiftList cs d = cs.map (fun t => ptShift t d) := by
  induction cs with
  | nil => rw [ptShiftList]; simp
  | cons c rest ih => rw [ptShiftList, ih]; simp

theorem ptShift_posAt (p : List ℕ) :
    ∀ (t : PTree) (d : Pos), (ptShift t d).posAt p = (t.posAt p).map (fun x => x + d) := by
  induction p with
  | nil =>
    intro t d
    rcases t with ⟨tp, tcs⟩
    rw [ptShift]
    rw [PTree.posAt, PTree.posAt]
    simp
  | cons i p2 ih =>
    intro t d
    rcases t with ⟨tp, tcs⟩
    rw [ptShift]
    rw [PTree.posAt, PTree.posAt]
    simp only [PTree.mkChildren, ptShiftList_eq_map, List.getElem?_map]
    cases h : tcs[i]? with
    | none => simp
    | some c => simp [ih c d]

theorem posTreeOf_posAt (p : List ℕ) :
    ∀ n : Node, (posTreeOf n).posAt p = n.posAt p := by
  induction p with
  | nil =>
    intro n
    rcases n with ⟨t, cs, np, s⟩
    rw [posTreeOf, PTree.posAt, Node.posAt]
    simp
  | cons i p2 ih =>
    intro n
    rcases n with ⟨t, cs, np, s⟩
    rw [posTreeOf, PTree.posAt, Node.posAt]
    simp only [PTree.mkChildren, Node.children_mk, posTreeOfList_eq_map, List.getElem?_map]
    cases h : cs[i]? with
    | none => simp
    | some c => simp [ih c]

theorem pathUnder_nil_left (p : List ℕ) : pathUnder [] p := ⟨p, rfl⟩

theorem not_pathUnder_cons_nil (j : ℕ) (q : List ℕ) : ¬ pathUnder (j :: q) [] := by
  rintro ⟨r, hr⟩
  simp at hr

theorem pathUnder_cons_iff (a b : ℕ) (q p : List ℕ) :
    pathUnder (a :: q) (b :: p) ↔ a = b ∧ pathUnder q p := by
  constructor
  · rintro ⟨r, hr⟩
    simp only [List.cons_append, List.cons.injEq] at hr
    exact ⟨hr.1.symm, r, hr.2⟩
  · rintro ⟨rfl, r, rfl⟩
    exact ⟨r, rfl⟩

theorem drawKids_ci (animationOn : Bool) (sel : Int) (allDeg singleDeg : ℝ)
    (vertical : Bool) (npos : Pos) (spinDeg : ℝ) (worldPos : Pos) (cs : List Node)
    (ih : ∀ c ∈ cs, ∀ (ci : Int) (w : Pos),
      (drawTree animationOn sel allDeg singleDeg vertical c ci w).2 = ci + countCones c) :
    ∀ ci : Int,
      (drawKids animationOn sel allDeg singleDeg vertical npos spinDeg worldPos cs ci).2 =
        ci + countConesList cs := by
  induction cs with
  | nil => intro ci; rw [drawKids, countConesList]; ring
  | cons c rest ihr =>
    intro ci
    rw [drawKids, countConesList]
    simp only []
    rw [ihr (fun d hd => ih d (by simp [hd])), ih c (by simp)]
    ring

theorem drawTree_ci (animationOn : Bool) (sel : Int) (allDeg singleDeg : ℝ)
    (vertical : Bool) (n : Node) :
    ∀ (ci : Int) (w : Pos),
      (drawTree animationOn sel allDeg singleDeg vertical n ci w).2 = ci + countCones n := by
  induction n using Node.strongInd with
  | h t cs p s ih =>
    intro ci w
    rw [drawTree, countCones]
    by_cases hcs : cs.isEmpty
    · rw [if_pos hcs, if_pos hcs]
      rw [List.isEmpty_iff] at hcs
      subst hcs
      rw [countConesList]
      ring
    · rw [if_neg hcs, if_neg hcs]
      simp only []
      rw [drawKids_ci _ _ _ _ _ _ _ _ cs ih]
      ring

/-- The world position written at the root of a draw traversal is the
`worldPos` passed in. -/
theorem drawTree_root_pos (animationOn : Bool) (sel : Int) (allDeg singleDeg : ℝ)
    (vertical : Bool) (n : Node) (ci : Int) (w : Pos) :
    (drawTree animationOn sel allDeg singleDeg vertical n ci w).1.pos = w := by
  rcases n with ⟨t, cs, p, s⟩
  rw [drawTree]
  split
  · simp
  · simp

/-- Element `j` of the child loop's output: the draw of child `j`, started at
the cone index advanced past the earlier siblings' cones, at world position
`worldPos` plus the (possibly rotated) layout offset of child `j`. -/
theorem drawKids_get (animationOn : Bool) (sel : Int) (allDeg singleDeg : ℝ)
    (vertical : Bool) (npos : Pos) (spinDeg : ℝ) (worldPos : Pos) (cs : List Node)
    (ih : ∀ c ∈ cs, ∀ (ci : Int) (w : Pos),
      (drawTree animationOn sel allDeg singleDeg vertical c ci w).2 = ci + countCones c) :
    ∀ (ci : Int) (j : ℕ),
      ((drawKids animationOn sel allDeg singleDeg vertical npos spinDeg worldPos cs ci).1)[j]? =
        (cs[j]?).map (fun c =>
          (drawTree animationOn sel allDeg singleDeg vertical c
            (ci + countConesList (cs.take j))
            (worldPos + (if spinDeg ≠ 0 then
              rotateOffsetAroundConeAxis (c.pos - npos) spinDeg vertical
              else c.pos - npos))).1) := by
  induction cs with
  | nil => intro ci j; rw [drawKids]; simp
  | cons c rest ihr =>
    intro ci j
    rw [drawKids]
    cases j with
    | zero =>
      simp only [List.getElem?_cons_zero, List.take_zero, countConesList,
        Option.map_some', add_zero]
    | succ j2 =>
      simp only [List.getElem?_cons_succ, List.take_succ_cons, countConesList]
      rw [ihr (fun d hd => ih d (by simp [hd]))]
      rw [ih c (by simp)]
      cases hj : rest[j2]? with
      | none => simp
      | some d =>
        simp only [Option.map_some']
        congr 2
        ring

theorem PTree.child_sizeOf_lt {c : PTree} {cs : List PTree} (h : c ∈ cs)
    (p : Pos) : sizeOf c < sizeOf (PTree.mk p cs) := by
  have h1 : sizeOf c < sizeOf cs := List.sizeOf_lt_of_mem h
  cases cs with
  | nil => cases h
  | cons a l => simp only [PTree.mk.sizeOf_spec]; omega

/-- Structural induction for `PTree` through the nested `List` of children. -/
def PTree.strongInd {P : PTree → Prop}
    (h : ∀ p cs, (∀ c ∈ cs, P c) → P (PTree.mk p cs)) : ∀ t, P t
  | .mk p cs => h p cs (fun c hc => PTree.strongInd h c)
termination_by t => sizeOf t
decreasing_by exact PTree.child_sizeOf_lt hc p

theorem ptShift_zero (t : PTree) : ptShift t 0 = t := by
  induction t using PTree.strongInd with
  | h p cs ih =>
    rw [ptShift, ptShiftList_eq_map]
    congr 1
    · ext <;> simp
    · induction cs with
      | nil => simp
      | cons c rest ihr =>
        simp only [List.map_cons, List.cons.injEq]
        exact ⟨ih c (by simp), ihr (fun d hd => ih d (by simp [hd]))⟩

theorem drawKids_no_spin (animationOn : Bool) (sel : Int) (allDeg singleDeg : ℝ)
    (vertical : Bool) (npos worldPos : Pos) (cs : List Node)
    (ih : ∀ c ∈ cs, ∀ (ci : Int) (w : Pos),
      (∀ idx : Int, ci ≤ idx → idx < ci + countCones c →
        coneSpinDeg animationOn sel allDeg singleDeg idx = 0) →
      (drawTree animationOn sel allDeg singleDeg vertical c ci w).1 =
        ptShift (posTreeOf c) (w - c.pos)) :
    ∀ ci : Int,
      (∀ idx : Int, ci ≤ idx → idx < ci + countConesList cs →
        coneSpinDeg animationOn sel allDeg singleDeg idx = 0) →
      (drawKids animationOn sel allDeg singleDeg vertical npos 0 worldPos cs ci).1 =
        ptShiftList (posTreeOfList cs) (worldPos - npos) := by
  induction cs with
  | nil =>
    intro ci h
    rw [drawKids, posTreeOfList, ptShiftList]
  | cons c rest ihr =>
    intro ci h
    have hcc := countCones_nonneg c
    have hcr := countConesList_nonneg rest
    have hsplit : countConesList (c :: rest) = countCones c + countConesList rest := by
      rw [countConesList]
    rw [drawKids, posTreeOfList, ptShiftList]
    simp only [ne_eq, not_true_eq_false, if_false, ite_false]
    have hshift : (worldPos + (c.pos - npos)) - c.pos = worldPos - npos := by
      ext <;> simp <;> ring
    have hc1 : (drawTree animationOn sel allDeg singleDeg vertical c ci
        (worldPos + (c.pos - npos))).1 = ptShift (posTreeOf c) (worldPos - npos) := by
      rw [ih c (by simp) ci _ (fun idx h1 h2 => h idx h1 (by omega)), hshift]
    have hc2 : (drawTree animationOn sel allDeg singleDeg vertical c ci
        (worldPos + (c.pos - npos))).2 = ci + countCones c :=
      drawTree_ci animationOn sel allDeg singleDeg vertical c ci _
    rw [hc1, hc2]
    rw [ihr (fun d hd => ih d (by simp [hd])) (ci + countCones c)
      (fun idx h1 h2 => h idx (by omega) (by omega))]

theorem drawTree_no_spin (animationOn : Bool) (sel : Int) (allDeg singleDeg : ℝ)
    (vertical : Bool) (n : Node) :
    ∀ (ci : Int) (w : Pos),
      (∀ idx : Int, ci ≤ idx → idx < ci + countCones n →
        coneSpinDeg animationOn sel allDeg singleDeg idx = 0) →
      (drawTree animationOn sel allDeg singleDeg vertical n ci w).1 =
        ptShift (posTreeOf n) (w - n.pos) := by
  induction n using Node.strongInd with
  | h t cs p s ih =>
    intro ci w hz
    rw [drawTree, posTreeOf]
    by_cases hcs : cs.isEmpty
    · rw [if_pos hcs]
      rw [List.isEmpty_iff] at hcs
      subst hcs
      rw [posTreeOfList, ptShift, ptShiftList]
      simp only [Node.pos_mk]
      congr 1
      ext <;> simp
    · rw [if_neg hcs]
      have hne : cs ≠ [] := by simpa [List.isEmpty_iff] using hcs
      have hpos := countCones_pos_of_child (t := t) (p := p) (s := s) hne
      rw [countCones, if_neg hcs] at hpos
      have hspin : coneSpinDeg animationOn sel allDeg singleDeg ci = 0 := by
        apply hz ci le_rfl
        rw [countCones, if_neg hcs]
        have := countConesList_nonneg cs
        omega
      simp only [hspin]
      rw [drawKids_no_spin animationOn sel allDeg singleDeg vertical p w cs ih (ci + 1)
        (fun idx h1 h2 => hz idx (by omega) (by rw [countCones, if_neg hcs]; omega))]
      rw [ptShift]
      simp only [Node.pos_mk]
      congr 1
      ext <;> simp

/-- C2: when the spin angle used for every cone in a frame is `0` (for example
when animation is disabled), the world position computed by the draw traversal
for every node equals that node's cached layout position. -/
theorem C2_zero_spin_world_eq_layout (animationOn : Bool) (sel : Int)
    (allDeg singleDeg : ℝ) (vertical : Bool) (n : Node) (ci : Int)
    (hz : ∀ idx : Int, coneSpinDeg animationOn sel allDeg singleDeg idx = 0) :
    (drawTree animationOn sel allDeg singleDeg vertical n ci n.pos).1 = posTreeOf n := by
  rw [drawTree_no_spin animationOn sel allDeg singleDeg vertical n ci n.pos
    (fun idx _ _ => hz idx)]
  have h0 : n.pos - n.pos = (0 : Pos) := by ext <;> simp
  rw [h0, ptShift_zero]

/-- A closed instance of `C2_zero_spin_world_eq_layout`: with animation off, a
two-level tree renders every node at its layout position. -/
theorem C2_zero_spin_world_eq_layout_witness :
    (let g : Node := Node.mk "g" [] ⟨2, 0, 0⟩ 1
     let c : Node := Node.mk "c" [g] ⟨1, 0, 0⟩ 2
     let r : Node := Node.mk "r" [c] ⟨0, 0, 0⟩ 3
     (drawTree false 0 10 20 true r 0 r.pos).1 = posTreeOf r) := by
  exact C2_zero_spin_world_eq_layout false 0 10 20 true
    (Node.mk "r" [Node.mk "c" [Node.mk "g" [] ⟨2, 0, 0⟩ 1] ⟨1, 0, 0⟩ 2] ⟨0, 0, 0⟩ 3) 0
    (fun idx => by rw [coneSpinDeg]; simp)

theorem countConesList_append (a b : List Node) :
    countConesList (a ++ b) = countConesList a + countConesList b := by
  induction a with
  | nil =>
    simp only [List.nil_append]
    rw [countConesList]
    ring
  | cons c rest ih =>
    simp only [List.cons_append]
    rw [countConesList, countConesList, ih]
    ring

theorem countConesList_take_succ (cs : List Node) :
    ∀ (j : ℕ) (c : Node), cs[j]? = some c →
      countConesList (cs.take (j + 1)) = countConesList (cs.take j) + countCones c := by
  induction cs with
  | nil => intro j c h; simp at h
  | cons d rest ih =>
    intro j c h
    cases j with
    | zero =>
      simp only [List.getElem?_cons_zero, Option.some.injEq] at h
      subst h
      simp only [List.take_succ_cons, List.take_zero]
      rw [countConesList, countConesList, countConesList]
      ring
    | succ j2 =>
      simp only [List.getElem?_cons_succ] at h
      simp only [List.take_succ_cons]
      rw [countConesList, countConesList, ih j2 c h]
      ring

theorem countConesList_take_le (cs : List Node) (i j : ℕ) (hij : i ≤ j) :
    countConesList (cs.take i) ≤ countConesList (cs.take j) := by
  have h1 : (cs.take j).take i ++ (cs.take j).drop i = cs.take j :=
    List.take_append_drop i (cs.take j)
  have h2 : (cs.take j).take i = cs.take i := by rw [List.take_take, min_eq_left hij]
  have h3 := countConesList_nonneg ((cs.take j).drop i)
  calc countConesList (cs.take i) = countConesList ((cs.take j).take i) := by rw [h2]
    _ ≤ countConesList ((cs.take j).take i) + countConesList ((cs.take j).drop i) := by omega
    _ = countConesList (cs.take j) := by rw [← countConesList_append, h1]

theorem countConesList_take_get_le (cs : List Node) (j : ℕ) (c : Node)
    (h : cs[j]? = some c) :
    countConesList (cs.take j) + countCones c ≤ countConesList cs := by
  have hj : j < cs.length := (List.getElem?_eq_some_iff.mp h).1
  rw [← countConesList_take_succ cs j c h]
  have hle := countConesList_take_le cs (j + 1) cs.length hj
  rw [List.take_length] at hle
  exact hle

theorem conesBefore_nonneg (q : List ℕ) : ∀ n : Node, 0 ≤ conesBefore n q := by
  induction q with
  | nil => intro n; rw [conesBefore]
  | cons i p ih =>
    intro n
    rw [conesBefore]
    cases h : n.children[i]? with
    | none => simp only [h]; omega
    | some c =>
      simp only [h]
      have h1 := countConesList_nonneg (n.children.take i)
      have h2 := ih c
      omega

theorem conesBefore_lt (q : List ℕ) :
    ∀ (n m : Node), nodeAtPath n q = some m → m.children ≠ [] →
      conesBefore n q < countCones n := by
  induction q with
  | nil =>
    intro n m hm hne
    rw [nodeAtPath] at hm
    simp only [Option.some.injEq] at hm
    subst hm
    rw [conesBefore]
    rcases n with ⟨t, cs, p, s⟩
    simp only [Node.children_mk] at hne
    exact lt_of_lt_of_le zero_lt_one (countCones_pos_of_child hne)
  | cons i p ih =>
    intro n m hm hne
    rw [nodeAtPath] at hm
    rw [conesBefore]
    cases h : n.children[i]? with
    | none =>
      rw [h] at hm
      exact Option.noConfusion hm
    | some c =>
      simp only [h] at hm ⊢
      have h1 := ih c m hm hne
      have h2 := countConesList_take_get_le n.children i c h
      rcases n with ⟨t, cs, pp, s⟩
      simp only [Node.children_mk] at h h2 ⊢
      rw [countCones]
      have hcs : ¬ cs.isEmpty := by
        rw [List.isEmpty_iff]
        intro he
        subst he
        simp at h
      rw [if_neg hcs]
      omega

theorem ite_rot (rel : Pos) (sd : ℝ) (v : Bool) :
    (if sd ≠ 0 then rotateOffsetAroundConeAxis rel sd v else rel) =
      rotateOffsetAroundConeAxis rel sd v := by
  split
  · rfl
  · rename_i h
    push_neg at h
    rw [h, rotateOffsetAroundConeAxis_zero]

theorem coneSpinDeg_self (sel : Int) (hsel : 0 ≤ sel) (a b : ℝ) :
    coneSpinDeg true sel a b sel = b := by
  have hne : ¬ (sel = -1) := by omega
  simp [coneSpinDeg, hne]

theorem coneSpinDeg_other (sel idx : Int) (hne : sel ≠ -1) (hidx : idx ≠ sel) (a b : ℝ) :
    coneSpinDeg true sel a b idx = 0 := by
  simp [coneSpinDeg, hne, hidx]

theorem drawTree_posAt_nil (animationOn : Bool) (sel : Int) (allDeg singleDeg : ℝ)
    (vertical : Bool) (n : Node) (ci : Int) (w : Pos) :
    PTree.posAt (drawTree animationOn sel allDeg singleDeg vertical n ci w).1 [] = some w := by
  rw [PTree.posAt, drawTree_root_pos]

theorem drawTree_posAt_cons_none (animationOn : Bool) (sel : Int) (allDeg singleDeg : ℝ)
    (vertical : Bool) (t : String) (cs : List Node) (p : Pos) (s : Int) (ci : Int)
    (w : Pos) (l : ℕ) (p2 : List ℕ) (h : cs[l]? = none) :
    PTree.posAt
      (drawTree animationOn sel allDeg singleDeg vertical (Node.mk t cs p s) ci w).1
      (l :: p2) = none := by
  rw [drawTree]
  by_cases hcs : cs.isEmpty
  · rw [if_pos hcs]
    rw [PTree.posAt]
    simp
  · rw [if_neg hcs]
    simp only []
    rw [PTree.posAt]
    simp only [PTree.mkChildren]
    rw [drawKids_get animationOn sel allDeg singleDeg vertical p _ w cs
      (fun c _ => drawTree_ci animationOn sel allDeg singleDeg vertical c), h]
    simp

theorem drawTree_posAt_cons_some (animationOn : Bool) (sel : Int) (allDeg singleDeg : ℝ)
    (vertical : Bool) (t : String) (cs : List Node) (p : Pos) (s : Int) (ci : Int)
    (w : Pos) (l : ℕ) (p2 : List ℕ) (cl : Node) (h : cs[l]? = some cl) :
    PTree.posAt
      (drawTree animationOn sel allDeg singleDeg vertical (Node.mk t cs p s) ci w).1
      (l :: p2) =
    PTree.posAt
      (drawTree animationOn sel allDeg singleDeg vertical cl
        (ci + 1 + countConesList (cs.take l))
        (w + (if coneSpinDeg animationOn sel allDeg singleDeg ci ≠ 0 then
          rotateOffsetAroundConeAxis (cl.pos - p)
            (coneSpinDeg animationOn sel allDeg singleDeg ci) vertical
          else cl.pos - p))).1 p2 := by
  have hcs : ¬ cs.isEmpty := by
    rw [List.isEmpty_iff]
    intro he
    subst he
    simp at h
  rw [drawTree, if_neg hcs]
  simp only []
  rw [PTree.posAt]
  simp only [PTree.mkChildren]
  rw [drawKids_get animationOn sel allDeg singleDeg vertical p _ w cs
    (fun c _ => drawTree_ci animationOn sel allDeg singleDeg vertical c), h]
  simp only [Option.map_some']

theorem drawTree_single_sel (allDeg singleDeg : ℝ) (vertical : Bool) (q : List ℕ) :
    ∀ (n : Node) (ci : Int) (w : Pos) (m : Node),
      0 ≤ ci →
      nodeAtPath n q = some m →
      m.children ≠ [] →
      (∀ p : List ℕ, ¬ pathUnder q p →
        PTree.posAt
            (drawTree true (ci + conesBefore n q) allDeg singleDeg vertical n ci w).1 p =
          (Node.posAt n p).map (fun x => x + (w - n.pos))) ∧
      (PTree.posAt
          (drawTree true (ci + conesBefore n q) allDeg singleDeg vertical n ci w).1 q =
        (Node.posAt n q).map (fun x => x + (w - n.pos))) ∧
      (∀ (j : ℕ) (c : Node) (p2 : List ℕ), m.children[j]? = some c →
        PTree.posAt
            (drawTree true (ci + conesBefore n q) allDeg singleDeg vertical n ci w).1
            (q ++ j :: p2) =
          (Node.posAt n (q ++ j :: p2)).map
            (fun x => x + ((w - n.pos) +
              (rotateOffsetAroundConeAxis (c.pos - m.pos) singleDeg vertical -
                (c.pos - m.pos))))) := by
  induction q with
  | nil =>
    intro n ci w m hci hm hmne
    rw [nodeAtPath] at hm
    simp only [Option.some.injEq] at hm
    subst hm
    rcases n with ⟨t, cs, p, s⟩
    simp only [Node.children_mk] at hmne
    have hcb : conesBefore (Node.mk t cs p s) [] = 0 := by rw [conesBefore]
    simp only [hcb, add_zero]
    have hspin : coneSpinDeg true ci allDeg singleDeg ci = singleDeg :=
      coneSpinDeg_self ci hci allDeg singleDeg
    refine ⟨?_, ?_, ?_⟩
    · intro p2 hp2
      exact absurd (pathUnder_nil_left p2) hp2
    · rw [drawTree_posAt_nil, Node.posAt]
      simp only [Node.pos_mk, Option.map_some']
      congr 1
      ext <;> simp <;> ring
    · intro j c p2 hc
      simp only [Node.children_mk] at hc
      simp only [List.nil_append]
      rw [drawTree_posAt_cons_some true ci allDeg singleDeg vertical t cs p s ci w j p2 c hc]
      rw [hspin, ite_rot]
      have hK := countConesList_nonneg (cs.take j)
      rw [drawTree_no_spin true ci allDeg singleDeg vertical c _ _
        (fun idx h1 h2 => coneSpinDeg_other ci idx (by omega) (by omega) allDeg singleDeg)]
      rw [ptShift_posAt, posTreeOf_posAt]
      rw [Node.posAt]
      simp only [Node.children_mk, hc, Node.pos_mk]
      have hd : w + rotateOffsetAroundConeAxis (c.pos - p) singleDeg vertical - c.pos =
          (w - p) +
            (rotateOffsetAroundConeAxis (c.pos - p) singleDeg vertical - (c.pos - p)) := by
        ext <;> simp <;> ring
      rw [hd]
  | cons i0 q2 ih =>
    intro n ci w m hci hm hmne
    rw [nodeAtPath] at hm
    rcases n with ⟨t, cs, p, s⟩
    simp only [Node.children_mk] at hm
    cases h0 : cs[i0]? with
    | none =>
      rw [h0] at hm
      exact Option.noConfusion hm
    | some c0 =>
      rw [h0] at hm
      simp only [] at hm
      have hcb : conesBefore (Node.mk t cs p s) (i0 :: q2) =
          1 + countConesList (cs.take i0) + conesBefore c0 q2 := by
        rw [conesBefore]
        simp only [Node.children_mk, h0]
      have hCB0 := conesBefore_nonneg q2 c0
      have hCB1 := conesBefore_lt q2 c0 m hm hmne
      have hK := countConesList_nonneg (cs.take i0)
      have hc0nn := countCones_nonneg c0
      have hspin0 : coneSpinDeg true (ci + conesBefore (Node.mk t cs p s) (i0 :: q2))
          allDeg singleDeg ci = 0 := by
        rw [hcb]
        exact coneSpinDeg_other _ ci (by omega) (by omega) allDeg singleDeg
      have hih := ih c0 (ci + 1 + countConesList (cs.take i0)) (w + (c0.pos - p)) m
        (by omega) hm hmne
      have hselr : ci + conesBefore (Node.mk t cs p s) (i0 :: q2) =
          ci + 1 + countConesList (cs.take i0) + conesBefore c0 q2 := by
        rw [hcb]; ring
      have hshift : w + (c0.pos - p) - c0.pos = w - p := by ext <;> simp <;> ring
      -- the three generalized conclusions
      refine ⟨?_, ?_, ?_⟩
      · intro pp hpp
        cases pp with
        | nil =>
          rw [drawTree_posAt_nil, Node.posAt]
          simp only [Node.pos_mk, Option.map_some']
          congr 1
          ext <;> simp <;> ring
        | cons l p2 =>
          by_cases hl : l = i0
          · subst hl
            rw [pathUnder_cons_iff] at hpp
            push_neg at hpp
            have hpq2 : ¬ pathUnder q2 p2 := hpp rfl
            rw [drawTree_posAt_cons_some true _ allDeg singleDeg vertical t cs p s ci w
              l p2 c0 h0]
            rw [hspin0]
            rw [if_neg (by simp)]
            rw [hselr]
            rw [hih.1 p2 hpq2]
            rw [hshift]
            rw [Node.posAt]
            simp only [Node.children_mk, h0, Node.pos_mk]
          · cases hcl : cs[l]? with
            | none =>
              rw [drawTree_posAt_cons_none true _ allDeg singleDeg vertical t cs p s ci w
                l p2 hcl]
              rw [Node.posAt]
              simp only [Node.children_mk, hcl, Node.pos_mk]
              simp
            | some cl =>
              rw [drawTree_posAt_cons_some true _ allDeg singleDeg vertical t cs p s ci w
                l p2 cl hcl]
              rw [hspin0]
              rw [if_neg (by simp)]
              have hKl := countConesList_nonneg (cs.take l)
              have hccl := countCones_nonneg cl
              have hout : ∀ idx : Int,
                  ci + 1 + countConesList (cs.take l) ≤ idx →
                  idx < ci + 1 + countConesList (cs.take l) + countCones cl →
                  coneSpinDeg true (ci + conesBefore (Node.mk t cs p s) (i0 :: q2))
                    allDeg singleDeg idx = 0 := by
                intro idx hidx1 hidx2
                rw [hcb]
                rcases Nat.lt_or_ge l i0 with hlt | hge
                · have hstep := countConesList_take_succ cs l cl hcl
                  have hmono := countConesList_take_le cs (l + 1) i0 hlt
                  exact coneSpinDeg_other _ idx (by omega) (by omega) allDeg singleDeg
                · have hgt : i0 < l := lt_of_le_of_ne hge (fun hh => hl hh.symm)
                  have hstep := countConesList_take_succ cs i0 c0 h0
                  have hmono := countConesList_take_le cs (i0 + 1) l hgt
                  exact coneSpinDeg_other _ idx (by omega) (by omega) allDeg singleDeg
              rw [drawTree_no_spin true _ allDeg singleDeg vertical cl _ _ hout]
              rw [ptShift_posAt, posTreeOf_posAt]
              rw [Node.posAt]
              simp only [Node.children_mk, hcl, Node.pos_mk]
              have hd : w + (cl.pos - p) - cl.pos = w - p := by ext <;> simp <;> ring
              rw [hd]
      · rw [drawTree_posAt_cons_some true _ allDeg singleDeg vertical t cs p s ci w
          i0 q2 c0 h0]
        rw [hspin0]
        rw [if_neg (by simp)]
        rw [hselr]
        rw [hih.2.1]
        rw [hshift]
        rw [Node.posAt]
        simp only [Node.children_mk, h0, Node.pos_mk]
      · intro j c p2 hc
        simp only [List.cons_append]
        rw [drawTree_posAt_cons_some true _ allDeg singleDeg vertical t cs p s ci w
          i0 (q2 ++ j :: p2) c0 h0]
        rw [hspin0]
        rw [if_neg (by simp)]
        rw [hselr]
        rw [hih.2.2 j c p2 hc]
        rw [hshift]
        rw [Node.posAt]
        simp only [Node.children_mk, h0, Node.pos_mk]

theorem Pos.add_zero_right (a : Pos) : a + 0 = a := by ext <;> simp

/-- C1 (amended): with animation on and the single cone at pre-order cone index
`conesBefore n q` (the internal node `m` at path `q`) selected and spinning by
`singleDeg`, the draw traversal leaves every node outside `m`'s subtree — and
`m` itself — at its layout position, while, for each child `c` of `m`, every
node of `c`'s subtree is displaced by the fixed translation
`rotate(c.pos - m.pos) - (c.pos - m.pos)`: the immediate children's offsets are
rotated, and each child's whole subtree translates rigidly with it (deeper
offsets are not rotated). -/
theorem C1_amended_single_spin (allDeg singleDeg : ℝ) (vertical : Bool)
    (n m : Node) (q : List ℕ)
    (hm : nodeAtPath n q = some m) (hmne : m.children ≠ []) :
    (∀ p : List ℕ, ¬ pathUnder q p →
      PTree.posAt
          (drawTree true (conesBefore n q) allDeg singleDeg vertical n 0 n.pos).1 p =
        Node.posAt n p) ∧
    (PTree.posAt
        (drawTree true (conesBefore n q) allDeg singleDeg vertical n 0 n.pos).1 q =
      Node.posAt n q) ∧
    (∀ (j : ℕ) (c : Node) (p2 : List ℕ), m.children[j]? = some c →
      PTree.posAt
          (drawTree true (conesBefore n q) allDeg singleDeg vertical n 0 n.pos).1
          (q ++ j :: p2) =
        (Node.posAt n (q ++ j :: p2)).map
          (fun x => x +
            (rotateOffsetAroundConeAxis (c.pos - m.pos) singleDeg vertical -
              (c.pos - m.pos)))) := by
  have h := drawTree_single_sel allDeg singleDeg vertical q n 0 n.pos m le_rfl hm hmne
  rw [zero_add] at h
  have hz : n.pos - n.pos = (0 : Pos) := by ext <;> simp
  refine ⟨?_, ?_, ?_⟩
  · intro p hp
    rw [h.1 p hp, hz]
    cases Node.posAt n p with
    | none => simp
    | some x => simp [Pos.add_zero_right]
  · rw [h.2.1, hz]
    cases Node.posAt n q with
    | none => simp
    | some x => simp [Pos.add_zero_right]
  · intro j c p2 hc
    rw [h.2.2 j c p2 hc, hz]
    have hzz : (0 : Pos) +
        (rotateOffsetAroundConeAxis (c.pos - m.pos) singleDeg vertical - (c.pos - m.pos)) =
        (rotateOffsetAroundConeAxis (c.pos - m.pos) singleDeg vertical - (c.pos - m.pos)) := by
      ext <;> simp
    rw [hzz]

/-- A closed instance of `C1_amended_single_spin` on a three-node chain with the
root cone selected. -/
theorem C1_amended_single_spin_witness :
    (let g : Node := Node.mk "g" [] ⟨2, 0, 0⟩ 1
     let c : Node := Node.mk "c" [g] ⟨1, 0, 0⟩ 2
     let r : Node := Node.mk "r" [c] ⟨0, 0, 0⟩ 3
     (∀ p : List ℕ, ¬ pathUnder [] p →
       PTree.posAt (drawTree true (conesBefore r []) 0 90 true r 0 r.pos).1 p =
         Node.posAt r p) ∧
     (PTree.posAt (drawTree true (conesBefore r []) 0 90 true r 0 r.pos).1 [] =
       Node.posAt r []) ∧
     (∀ (j : ℕ) (c2 : Node) (p2 : List ℕ), r.children[j]? = some c2 →
       PTree.posAt (drawTree true (conesBefore r []) 0 90 true r 0 r.pos).1
           ([] ++ j :: p2) =
         (Node.posAt r ([] ++ j :: p2)).map
           (fun x => x +
             (rotateOffsetAroundConeAxis (c2.pos - r.pos) 90 true - (c2.pos - r.pos))))) := by
  exact C1_amended_single_spin 0 90 true
    (Node.mk "r" [Node.mk "c" [Node.mk "g" [] ⟨2, 0, 0⟩ 1] ⟨1, 0, 0⟩ 2] ⟨0, 0, 0⟩ 3)
    (Node.mk "r" [Node.mk "c" [Node.mk "g" [] ⟨2, 0, 0⟩ 1] ⟨1, 0, 0⟩ 2] ⟨0, 0, 0⟩ 3)
    [] (by rw [nodeAtPath]) (by simp)

theorem rot90_vertical (a b cz : ℝ) :
    rotateOffsetAroundConeAxis ⟨a, b, cz⟩ 90 true = ⟨-cz, b, a⟩ := by
  rw [rotateOffsetAroundConeAxis]
  have h : (90 : ℝ) * Real.pi / 180 = Real.pi / 2 := by ring
  simp only [h, Real.cos_pi_div_two, Real.sin_pi_div_two]
  ext <;> simp

/-- A three-node chain used to exhibit the non-rigidity of the spin transform:
`r` at the origin, its child `c` at `(1,0,0)`, and `c`'s child `g` at
`(2,0,0)`. -/
def chainG : Node := Node.mk "g" [] ⟨2, 0, 0⟩ 1

/-- The middle node of the chain. -/
def chainC : Node := Node.mk "c" [chainG] ⟨1, 0, 0⟩ 2

/-- The root of the chain. -/
def chainR : Node := Node.mk "r" [chainC] ⟨0, 0, 0⟩ 3

/-- C1 as stated is false on the code: with the root cone (index `0`) selected
and spinning by `90` degrees in vertical mode, the grandchild `g` — a node in
the spinning cone's descendant subtree — is drawn at `(1,0,1)`, not at the
rigid rotation `(0,0,2)` of its layout offset `(2,0,0)` around the spinning
cone's node: only the immediate child's offset is rotated, and the deeper
offset is carried over unrotated. -/
theorem C1_counterexample :
    nodeAtPath chainR [] = some chainR ∧
    conesBefore chainR [] = 0 ∧
    pathUnder [] [0, 0] ∧
    Node.posAt chainR [0, 0] = some ⟨2, 0, 0⟩ ∧
    PTree.posAt (drawTree true 0 0 90 true chainR 0 chainR.pos).1 [0, 0] =
      some ⟨1, 0, 1⟩ ∧
    chainR.pos + rotateOffsetAroundConeAxis ((⟨2, 0, 0⟩ : Pos) - chainR.pos) 90 true =
      (⟨0, 0, 2⟩ : Pos) ∧
    PTree.posAt (drawTree true 0 0 90 true chainR 0 chainR.pos).1 [0, 0] ≠
      some (chainR.pos +
        rotateOffsetAroundConeAxis ((⟨2, 0, 0⟩ : Pos) - chainR.pos) 90 true) := by
  have h1 : nodeAtPath chainR [] = some chainR := by rw [nodeAtPath]
  have hne : chainR.children ≠ [] := by rw [chainR]; simp
  have hc0 : chainR.children[0]? = some chainC := by rw [chainR]; simp
  have hmain := (drawTree_single_sel 0 90 true [] chainR 0 chainR.pos chainR le_rfl
    h1 hne).2.2 0 chainC [0] hc0
  have hsel : (0 : Int) + conesBefore chainR [] = 0 := by rw [conesBefore]; ring
  rw [hsel] at hmain
  simp only [List.nil_append] at hmain
  have hposg : Node.posAt chainR [0, 0] = some ⟨2, 0, 0⟩ := by
    simp [Node.posAt, chainR, chainC, chainG]
  have hrel : chainC.pos - chainR.pos = (⟨1, 0, 0⟩ : Pos) := by
    rw [chainC, chainR]; ext <;> simp
  have hrot : rotateOffsetAroundConeAxis (⟨1, 0, 0⟩ : Pos) 90 true = ⟨0, 0, 1⟩ := by
    rw [rot90_vertical]; ext <;> simp
  have hRpos : chainR.pos = (⟨0, 0, 0⟩ : Pos) := by rw [chainR]; simp
  have h5 : PTree.posAt (drawTree true 0 0 90 true chainR 0 chainR.pos).1 [0, 0] =
      some ⟨1, 0, 1⟩ := by
    rw [hmain, hposg]
    simp only [Option.map_some']
    congr 1
    rw [hrel, hrot, hRpos]
    ext <;> simp <;> norm_num
  have h6 : chainR.pos +
      rotateOffsetAroundConeAxis ((⟨2, 0, 0⟩ : Pos) - chainR.pos) 90 true =
      (⟨0, 0, 2⟩ : Pos) := by
    rw [hRpos]
    have h2 : (⟨2, 0, 0⟩ : Pos) - (⟨0, 0, 0⟩ : Pos) = (⟨2, 0, 0⟩ : Pos) := by ext <;> simp
    rw [h2, rot90_vertical]
    ext <;> simp
  refine ⟨h1, by rw [conesBefore], ⟨[0, 0], rfl⟩, hposg, h5, h6, ?_⟩
  rw [h5, h6]
  intro hcontra
  simp only [Option.some.injEq] at hcontra
  have hx := congrArg Pos.x hcontra
  norm_num at hx

/-- C4: after `computeSize` runs, every node's `size` field equals `1` plus the
sum of its children's `size` fields; a single-node tree gets size `1`; and the
value returned by `computeSize` is the root's `size` field. -/
theorem C4_computeSize_correct :
    (∀ n : Node, SizeInv (computeSize n).1) ∧
    (∀ n : Node, (computeSize n).2 = (computeSize n).1.size) ∧
    (∀ (t : String) (p : Pos) (s : Int), (computeSize (Node.mk t [] p s)).2 = 1) := by
  refine ⟨fun n => (computeSize_spec n).1, fun n => (computeSize_spec n).2, ?_⟩
  intro t p s
  simp [computeSize, computeSizeList]
